import Mathlib

/-!
# Verification of the `fortuner` core pipeline

A shallow embedding of the three-stage pipeline of `src/lib.rs`:

* the file Locator (`find_files`): walk input paths, filter regular files
  whose extension is not `dat`, sort, dedup;
* the fortune Parser (`read_fortunes`): split each file's lines on the
  terminator line `%`, accumulating a shared line buffer;
* the Selector (`run`'s two branches and `pick_fortune`): pattern filtering
  with source-grouped headers, or a (possibly seeded) random pick.

Filesystem access, the directory walker, the regex engine and the random
number generator are external to the repository; they are embedded as
explicit parameters (an abstract `FileSystem`, a `String → Bool` matcher,
and a deterministic seeded index function modelled from the spec).
-/

namespace Fortuner

/-! ## Data model -/

/-- `Fortune` record of `lib.rs`: a `source` (base file name) and a `text`. -/
structure Fortune where
  source : String
  text : String
deriving DecidableEq, Repr

/-- An input file as the Parser sees it: its path (as handed over by the
Locator) and the sequence of lines produced by the buffered line reader. -/
structure FFile where
  path : String
  lines : List String
deriving DecidableEq, Repr

/-! ## Path helpers

`read_fortunes` computes `path.file_name()` and `find_files` compares
`path.extension()` against `"dat"`.  Both are embedded on the character
list of the path string. -/

/-- Split a character list on a separator character.  Always returns at
least one (possibly empty) group. -/
def splitOnChar (sep : Char) : List Char → List (List Char)
  | [] => [[]]
  | c :: rest =>
    let r := splitOnChar sep rest
    if c = sep then [] :: r
    else
      match r with
      | [] => [[c]]
      | g :: gs => (c :: g) :: gs

/-- The final path component, as Rust's `Path::file_name` produces it for
the paths handled here. -/
def baseName (p : String) : String :=
  String.mk ((splitOnChar '/' p.data).getLastD [])

/-- Rust's `Path::extension`: the portion of the file name after the final
dot; `none` when there is no dot, or when the only dot is the leading one. -/
def pathExtension (p : String) : Option String :=
  match splitOnChar '.' (baseName p).data with
  | [] => none
  | [_] => none
  | [] :: [_] => none
  | _ :: rest => some (String.mk (rest.getLastD []))

/-! ## Fortune Parser (`read_fortunes`)

The Rust function holds one mutable pair: the `fortunes` produced so far
and the line buffer `buf`.  Note that in the source `buf` is declared
outside the loop over files and is never cleared when a file ends, so its
contents carry over from one file to the next. -/

/-- One step of the `for_each` over lines in `read_fortunes`: a terminator
line `%` flushes a non-empty buffer into a new `Fortune`; any other line is
appended to the buffer. -/
def processLine (name : String) : List Fortune × List String → String → List Fortune × List String
  | (acc, buf), line =>
    if line = "%" then
      if buf.isEmpty then (acc, buf)
      else (acc ++ [⟨name, String.intercalate "\n" buf⟩], [])
    else (acc, buf ++ [line])

/-- Processing of one file inside `read_fortunes`: fold `processLine` over
its lines, with the source name fixed to the file's base name. -/
def processFile (st : List Fortune × List String) (f : FFile) : List Fortune × List String :=
  f.lines.foldl (processLine (baseName f.path)) st

/-- `read_fortunes`: fold all files over one shared state, starting from no
fortunes and an empty buffer, and return the fortunes (the final buffer is
dropped). -/
def readFortunes (files : List FFile) : List Fortune :=
  (files.foldl processFile ([], [])).1

/-! ## Spec-side description of the Parser output

`blocksFrom buf lines` lists the terminator-closed, non-empty blocks of
`lines` when the accumulated buffer starts as `buf`; `trailingFrom` is the
buffer left after the last line. -/

/-- The terminator-closed non-empty blocks of a line sequence, starting
from an initial buffer. -/
def blocksFrom (buf : List String) : List String → List (List String)
  | [] => []
  | l :: rest =>
    if l = "%" then
      if buf.isEmpty then blocksFrom [] rest
      else buf :: blocksFrom [] rest
    else blocksFrom (buf ++ [l]) rest

/-- The unterminated trailing buffer of a line sequence. -/
def trailingFrom (buf : List String) : List String → List String
  | [] => buf
  | l :: rest =>
    if l = "%" then trailingFrom [] rest
    else trailingFrom (buf ++ [l]) rest

/-- The terminator-closed, non-empty blocks of a file's lines (spec-side
description of the record structure). -/
def closedBlocks (lines : List String) : List (List String) :=
  blocksFrom [] lines

/-! ## Selector: filter mode (`run`, `Some(pattern)` branch)

The branch iterates matching fortunes carrying `prev_source`; it prints
`"({source})\n%"` to stderr when the source differs from the previous
match's source (or on the first match), then `"{text}\n%"` to stdout. -/

/-- One emitted unit of filter-mode output: a source-label header (stderr)
or a fortune body (stdout). -/
inductive OutLine where
  | header : String → OutLine
  | body : String → OutLine
deriving DecidableEq, Repr

/-- The exact string printed for each output unit: `eprintln!("({})\n%", source)`
and `println!("{}\n%", text)`. -/
def renderOut : OutLine → String
  | .header s => "(" ++ s ++ ")\n%"
  | .body t => t ++ "\n%"

/-- One step of the `for_each` over matching fortunes in `run`: emit a
header exactly when `prev_source` is not already this fortune's source,
then emit the body. -/
def filterEmit (st : Option String × List OutLine) (f : Fortune) : Option String × List OutLine :=
  if st.1 = some f.source then
    (st.1, st.2 ++ [.body f.text])
  else
    (some f.source, st.2 ++ [.header f.source, .body f.text])

/-- The filter-mode output of `run`: fold `filterEmit` over the fortunes
whose text matches the pattern, starting with no previous source. -/
def filterOutput (matcher : String → Bool) (fortunes : List Fortune) : List OutLine :=
  ((fortunes.filter fun f => matcher f.text).foldl filterEmit (none, [])).2

/-- Spec-side grouping: walking the matched records with the previous
source label as explicit state, a header precedes the body exactly when
the source changes (or at the very first record). -/
def groupedOutput : Option String → List Fortune → List OutLine
  | _, [] => []
  | prev, f :: rest =>
    if prev = some f.source then
      .body f.text :: groupedOutput (some f.source) rest
    else
      .header f.source :: .body f.text :: groupedOutput (some f.source) rest

/-! ## Selector: random-pick mode (`pick_fortune` and `run`'s `None` branch)

Modelled from the spec: the `rand` crate (`StdRng::seed_from_u64`,
`thread_rng`, `SliceRandom::choose`) is external library code; it is
embedded as a deterministic pseudo-random index computed from the seed,
and the process-wide entropy consumed by `thread_rng` is an explicit
`entropy` parameter of the run. -/

/-- Modelled from the spec: a seeded, reproducible pseudo-random choice of
an index below `len`, as `StdRng::seed_from_u64` followed by
`SliceRandom::choose` performs (one linear-congruential step of a 64-bit
state, reduced modulo the length). -/
def stdRngIndex (seed len : Nat) : Nat :=
  (seed * 6364136223846793005 + 1442695040888963407) % 2 ^ 64 % len

/-- `pick_fortune`: choose one fortune's text, or `none` from an empty
slice.  A supplied seed drives the index; otherwise the ambient process
entropy does. -/
def pickFortune (fortunes : List Fortune) (seed : Option Nat) (entropy : Nat) : Option String :=
  let idx :=
    match seed with
    | some s => stdRngIndex s fortunes.length
    | none => stdRngIndex entropy fortunes.length
  (fortunes[idx]?).map (·.text)

/-- The `None`-pattern branch of `run`: print the picked fortune or the
fixed fallback string.  This branch always succeeds. -/
def runRandomPick (fortunes : List Fortune) (seed : Option Nat) (entropy : Nat) : String :=
  (pickFortune fortunes seed entropy).getD "No fortunes found"

/-! ## File Locator (`find_files`)

`find_files` checks `fs::metadata` on every top-level path (bailing out on
the first failure), walks each existing path with `WalkDir`, keeps the
entries that are regular files without extension `dat`, then sorts and
dedups the collected paths.  The filesystem and the walker are external;
they are embedded as an abstract `FileSystem` record. -/

/-- One entry yielded by the directory walker: its path and whether its
file type is a regular file. -/
structure WalkEntry where
  path : String
  isFile : Bool
deriving DecidableEq, Repr

/-- The ambient filesystem as `find_files` observes it: whether
`fs::metadata` succeeds on a path, the error message it reports otherwise,
and the entries `WalkDir` yields under a path (already restricted to the
successfully inspected ones, as `filter_map(Result::ok)` does). -/
structure FileSystem where
  metaOk : String → Bool
  ioErr : String → String
  walk : String → List WalkEntry

/-- The `WalkDir` filter of `find_files`: keep entries whose file type is a
regular file and whose path extension is not `dat`. -/
def eligible (e : WalkEntry) : Bool :=
  e.isFile && !(pathExtension e.path == some "dat")

/-- The paths collected from one existing top-level path. -/
def walkFiles (fs : FileSystem) (p : String) : List String :=
  ((fs.walk p).filter eligible).map (·.path)

/-- The loop of `find_files` before sorting: walk each path in order,
failing on the first path whose metadata lookup fails, with the message
`"{path}: {err}"`. -/
def collectFiles (fs : FileSystem) : List String → Except String (List String)
  | [] => .ok []
  | p :: rest =>
    if fs.metaOk p then
      (collectFiles fs rest).map fun files => walkFiles fs p ++ files
    else
      .error (p ++ ": " ++ fs.ioErr p)

/-- Byte-wise lexicographic comparison of two character sequences, as Rust
orders two `OsStr` path components. -/
def charLe : List Char → List Char → Bool
  | [], _ => true
  | _ :: _, [] => false
  | a :: as, b :: bs => if a = b then charLe as bs else decide (a < b)

/-- Lexicographic comparison of two component lists, each component
compared byte-wise: the order `Ord for Path` implements via
`compare_components`, on the normalized relative paths handled here. -/
def componentsLe : List (List Char) → List (List Char) → Bool
  | [], _ => true
  | _ :: _, [] => false
  | a :: as, b :: bs => if a = b then componentsLe as bs else charLe a b

/-- The path order used by the Locator's sort (`Vec<PathBuf>::sort`, which
sorts by `Ord for Path`): component-wise, splitting on the separator. -/
def pathLe (a b : String) : Prop :=
  componentsLe (splitOnChar '/' a.data) (splitOnChar '/' b.data) = true

instance : DecidableRel pathLe :=
  fun a b =>
    (inferInstance :
      Decidable (componentsLe (splitOnChar '/' a.data) (splitOnChar '/' b.data) = true))

/-- The comparator the spec asserts for the Locator's result: ascending by
the byte-wise path string (spec-side; the program sorts by `pathLe`). -/
def pathStringLe (a b : String) : Prop :=
  charLe a.data b.data = true

instance : DecidableRel pathStringLe :=
  fun a b => (inferInstance : Decidable (charLe a.data b.data = true))

/-- Rejoin the groups produced by `splitOnChar`, interposing the
separator: the left inverse used to transport antisymmetry of the
component order back to path strings. -/
def joinSep (sep : Char) : List (List Char) → List Char
  | [] => []
  | [g] => g
  | g :: gs => g ++ sep :: joinSep sep gs

/-- Helper of `dedupConsec`: dedup a list whose pending head is `a`. -/
def dedupAux (a : String) : List String → List String
  | [] => [a]
  | b :: rest => if a = b then dedupAux a rest else a :: dedupAux b rest

/-- `Vec::dedup`: remove consecutive repeated paths, keeping the first of
each run. -/
def dedupConsec : List String → List String
  | [] => []
  | a :: rest => dedupAux a rest

/-- `find_files`: collect, then sort ascending, then dedup. -/
def findFiles (fs : FileSystem) (paths : List String) : Except String (List String) :=
  (collectFiles fs paths).map fun files =>
    dedupConsec (files.insertionSort pathLe)

/-- A small concrete filesystem used to instantiate the Locator theorems:
every path except `missing` exists; walking `root` yields the directory
itself, two text files and one `dat` file. -/
def fsW : FileSystem where
  metaOk := fun p => !(p == "missing")
  ioErr := fun _ => "No such file or directory (os error 2)"
  walk := fun p =>
    if p = "root" then
      [⟨"root", false⟩, ⟨"root/sub/c.txt", true⟩, ⟨"root/a.txt", true⟩, ⟨"root/b.dat", true⟩]
    else []

/-- A concrete filesystem on which the component-wise sort order of the
Locator disagrees with byte-wise path-string order: under `root` live the
file `root/a-b` and the directory `root/a` holding `root/a/c`.  Component
order puts `root/a/c` first (component `a` is a strict prefix of `a-b`),
while the byte `-` sorts below the separator `/`. -/
def fsC : FileSystem where
  metaOk := fun _ => true
  ioErr := fun _ => ""
  walk := fun p =>
    if p = "root" then
      [⟨"root", false⟩, ⟨"root/a-b", true⟩, ⟨"root/a", false⟩, ⟨"root/a/c", true⟩]
    else []

/-! ## Parser lemmas -/

/-- Characterization of the line fold of `read_fortunes`: starting from
already-produced fortunes `acc` and buffer `buf`, the fold appends one
fortune per terminator-closed non-empty block and leaves the unterminated
trailing buffer. -/
theorem foldl_processLine (name : String) (lines : List String) (acc : List Fortune)
    (buf : List String) :
    lines.foldl (processLine name) (acc, buf) =
      (acc ++ (blocksFrom buf lines).map fun b => ⟨name, String.intercalate "\n" b⟩,
        trailingFrom buf lines) := by
  induction lines generalizing acc buf with
  | nil => simp [blocksFrom, trailingFrom]
  | cons l rest ih =>
    simp only [List.foldl_cons, processLine, blocksFrom, trailingFrom]
    by_cases hl : l = "%"
    · cases buf with
      | nil => simp [hl, ih]
      | cons x xs => simp [hl, ih, List.append_assoc]
    · simp [hl, ih]

/-- Claim C2: for a single input file, `read_fortunes` produces exactly one
`Fortune` per terminator-closed non-empty block, in on-disk order, each
with `source` equal to the file's base name (not its full path) and `text`
the newline-join of the block's lines. -/
theorem readFortunes_single_file (f : FFile) :
    readFortunes [f] =
      (closedBlocks f.lines).map fun b => ⟨baseName f.path, String.intercalate "\n" b⟩ := by
  simp [readFortunes, processFile, closedBlocks, foldl_processLine]

/-- Claim C1, evaluation at the failing input: the unterminated trailing
line `orphan` of file `dir/a` is not discarded; it leaks into the first
record of the later file `dir/b`, which alone would produce just `text`. -/
theorem readFortunes_crossfile_leak :
    readFortunes [⟨"dir/a", ["orphan"]⟩, ⟨"dir/b", ["text", "%"]⟩] =
        [⟨"b", "orphan\ntext"⟩] ∧
      readFortunes [⟨"dir/b", ["text", "%"]⟩] = [⟨"b", "text"⟩] := by
  decide

/-- Claim C10: a first block consisting of a single blank line immediately
followed by a terminator produces a record with empty `text`; the
empty-record suppression only applies to blocks with zero lines, as for a
leading terminator line. -/
theorem blank_line_block_emits_empty_text :
    readFortunes [⟨"f", ["", "%"]⟩] = [⟨"f", ""⟩] ∧
      readFortunes [⟨"f", ["%"]⟩] = [] := by
  decide

/-- Every block listed by `blocksFrom` is non-empty and free of terminator
lines, provided the initial buffer holds no terminator line. -/
theorem blocksFrom_mem (buf lines : List String) (hb : "%" ∉ buf) (b : List String)
    (h : b ∈ blocksFrom buf lines) : b ≠ [] ∧ "%" ∉ b := by
  induction lines generalizing buf with
  | nil => simp [blocksFrom] at h
  | cons l rest ih =>
    simp only [blocksFrom] at h
    by_cases hl : l = "%"
    · cases buf with
      | nil =>
        simp only [hl, if_true, List.isEmpty_nil] at h
        exact ih [] (by simp) h
      | cons x xs =>
        simp [hl] at h
        rcases h with rfl | h
        · exact ⟨by simp, hb⟩
        · exact ih [] (by simp) h
    · simp only [hl, if_false] at h
      refine ih (buf ++ [l]) ?_ h
      intro hc
      rcases List.mem_append.mp hc with hc | hc
      · exact hb hc
      · exact hl (List.mem_singleton.mp hc).symm

/-- The trailing buffer never holds a terminator line, provided the
initial buffer holds none. -/
theorem trailingFrom_no_terminator (buf lines : List String) (hb : "%" ∉ buf) :
    "%" ∉ trailingFrom buf lines := by
  induction lines generalizing buf with
  | nil => simpa [trailingFrom] using hb
  | cons l rest ih =>
    simp only [trailingFrom]
    by_cases hl : l = "%"
    · simp only [hl, if_true]
      exact ih [] (by simp)
    · simp only [hl, if_false]
      refine ih (buf ++ [l]) ?_
      intro hc
      rcases List.mem_append.mp hc with hc | hc
      · exact hb hc
      · exact hl (List.mem_singleton.mp hc).symm

/-- One file step of `read_fortunes` preserves the text-shape invariant:
all produced texts are newline-joins of non-empty terminator-free blocks,
and the buffer holds no terminator line. -/
theorem processFile_inv (st : List Fortune × List String) (file : FFile)
    (h1 : ∀ g ∈ st.1, ∃ b, b ≠ [] ∧ "%" ∉ b ∧ g.text = String.intercalate "\n" b)
    (h2 : "%" ∉ st.2) :
    (∀ g ∈ (processFile st file).1,
        ∃ b, b ≠ [] ∧ "%" ∉ b ∧ g.text = String.intercalate "\n" b) ∧
      "%" ∉ (processFile st file).2 := by
  obtain ⟨acc, buf⟩ := st
  rw [processFile, foldl_processLine]
  refine ⟨?_, trailingFrom_no_terminator buf file.lines h2⟩
  intro g hg
  rcases List.mem_append.mp hg with hg | hg
  · exact h1 g hg
  · obtain ⟨b, hbmem, rfl⟩ := List.mem_map.mp hg
    obtain ⟨hne, hnp⟩ := blocksFrom_mem buf file.lines h2 b hbmem
    exact ⟨b, hne, hnp, rfl⟩

/-- Claim C9 (amended): every record's `text` is exactly the newline-join
of a non-empty block of lines none of which is the terminator line, so the
multi-line structure and internal blank lines of the block are preserved
and no trailing delimiter is included; boundary blank lines, however, are
kept. -/
theorem readFortunes_text_blocks (files : List FFile) (g : Fortune)
    (hg : g ∈ readFortunes files) :
    ∃ b, b ≠ [] ∧ "%" ∉ b ∧ g.text = String.intercalate "\n" b := by
  suffices h : ∀ (fl : List FFile) (st : List Fortune × List String),
      (∀ x ∈ st.1, ∃ b, b ≠ [] ∧ "%" ∉ b ∧ x.text = String.intercalate "\n" b) →
      "%" ∉ st.2 →
      ∀ x ∈ (fl.foldl processFile st).1,
        ∃ b, b ≠ [] ∧ "%" ∉ b ∧ x.text = String.intercalate "\n" b by
    exact h files ([], []) (by simp) (by simp) g hg
  intro fl
  induction fl with
  | nil => intro st h1 _; simpa using h1
  | cons file rest ih =>
    intro st h1 h2
    obtain ⟨ha, hb⟩ := processFile_inv st file h1 h2
    exact ih (processFile st file) ha hb

/-- Witness for the amended claim C9 at a concrete input. -/
theorem readFortunes_text_blocks_witness :
    ∃ b, b ≠ [] ∧ "%" ∉ b ∧ (Fortune.mk "f" "a").text = String.intercalate "\n" b :=
  readFortunes_text_blocks [⟨"dir/f", ["a", "%"]⟩] ⟨"f", "a"⟩ (by decide)

/-- Claim C9, counterexample to the claim as stated: a block whose first
line is blank yields a record whose `text` starts with an empty line. -/
theorem readFortunes_boundary_blank_counterexample :
    readFortunes [⟨"f", ["", "a", "%"]⟩] = [⟨"f", "\na"⟩] ∧
      (splitOnChar '\n' (String.mk ['\n', 'a']).data).head? = some [] := by
  decide

/-! ## Selector lemmas -/

/-- Characterization of the fold over matching fortunes in `run`: the
emitted output is the accumulated output followed by the grouped output of
the remaining records. -/
theorem foldl_filterEmit (l : List Fortune) (prev : Option String) (out : List OutLine) :
    (l.foldl filterEmit (prev, out)).2 = out ++ groupedOutput prev l := by
  induction l generalizing prev out with
  | nil => simp [groupedOutput]
  | cons f rest ih =>
    simp only [List.foldl_cons, filterEmit, groupedOutput]
    by_cases h : prev = some f.source
    · simp [h, ih]
    · simp [h, ih]

/-- Claim C5: iterating the matched records in order, a source-label
header precedes a record's body exactly when the record's source differs
from the previous matched record's source (including before the very
first match), consecutive same-source matches emit no repeated header;
each body is printed as the record's text followed by a `%` line; and a
pattern matching no record produces no output. -/
theorem filter_mode_grouping (matcher : String → Bool) (fortunes : List Fortune) :
    filterOutput matcher fortunes =
        groupedOutput none (fortunes.filter fun f => matcher f.text) ∧
      ((∀ f ∈ fortunes, matcher f.text = false) → filterOutput matcher fortunes = []) ∧
      ∀ t, renderOut (.body t) = t ++ "\n%" := by
  refine ⟨by simp [filterOutput, foldl_filterEmit], ?_, fun t => rfl⟩
  intro h
  have hnil : fortunes.filter (fun f => matcher f.text) = [] := by
    rw [List.filter_eq_nil_iff]
    intro f hf
    simp [h f hf]
  simp [filterOutput, hnil, groupedOutput]

/-- Witness for claim C5: a pattern matching no record produces no output
at a concrete input. -/
theorem filter_mode_grouping_witness :
    filterOutput (fun t => t == "zzz") [⟨"s", "a"⟩] = [] :=
  (filter_mode_grouping (fun t => t == "zzz") [⟨"s", "a"⟩]).2.1 (by decide)

/-- Claim C6: with a supplied seed, selection is deterministic — two
invocations with the identical seed and identical fortune sequence return
the identical selection, whatever ambient entropy each invocation's
process supplies. -/
theorem pick_fortune_seeded_deterministic (fortunes : List Fortune) (seed e₁ e₂ : Nat) :
    pickFortune fortunes (some seed) e₁ = pickFortune fortunes (some seed) e₂ := rfl

/-- Claim C7: on an empty fortune sequence — for every seed value and with
no seed — `pick_fortune` returns the explicit `none` indicator rather than
failing, and the random-pick branch of `run` renders the fixed fallback
string. -/
theorem pick_fortune_empty_fallback (seed : Option Nat) (entropy : Nat) :
    pickFortune [] seed entropy = none ∧
      runRandomPick [] seed entropy = "No fortunes found" := by
  cases seed <;> simp [pickFortune, runRandomPick]

/-! ## Locator lemmas: the path order -/

/-- `charLe` is total. -/
theorem charLe_total : ∀ as bs : List Char, charLe as bs = true ∨ charLe bs as = true
  | [], _ => .inl rfl
  | _ :: _, [] => .inr rfl
  | a :: as, b :: bs => by
    by_cases h : a = b
    · subst h
      simp only [charLe, if_pos rfl]
      exact charLe_total as bs
    · rcases lt_or_gt_of_ne h with hlt | hgt
      · exact .inl (by simp [charLe, h, hlt])
      · exact .inr (by simp [charLe, Ne.symm h, hgt])

/-- `charLe` is transitive. -/
theorem charLe_trans : ∀ as bs cs : List Char,
    charLe as bs = true → charLe bs cs = true → charLe as cs = true
  | [], _, _, _, _ => rfl
  | _ :: _, [], _, h1, _ => by simp [charLe] at h1
  | _ :: _, _ :: _, [], _, h2 => by simp [charLe] at h2
  | a :: as, b :: bs, c :: cs, h1, h2 => by
    by_cases hab : a = b
    · subst hab
      simp only [charLe, if_pos rfl] at h1
      by_cases hac : a = c
      · subst hac
        simp only [charLe, if_pos rfl] at h2 ⊢
        exact charLe_trans as bs cs h1 h2
      · simpa [charLe, hac] using by simpa [charLe, hac] using h2
    · simp only [charLe, if_neg hab, decide_eq_true_eq] at h1
      by_cases hbc : b = c
      · subst hbc
        simp [charLe, hab, h1]
      · simp only [charLe, if_neg hbc, decide_eq_true_eq] at h2
        have hac : a < c := lt_trans h1 h2
        simp [charLe, ne_of_lt hac, hac]

/-- `charLe` is antisymmetric. -/
theorem charLe_antisymm : ∀ as bs : List Char,
    charLe as bs = true → charLe bs as = true → as = bs
  | [], [], _, _ => rfl
  | [], _ :: _, _, h2 => by simp [charLe] at h2
  | _ :: _, [], h1, _ => by simp [charLe] at h1
  | a :: as, b :: bs, h1, h2 => by
    by_cases hab : a = b
    · subst hab
      simp only [charLe, if_pos rfl] at h1 h2
      rw [charLe_antisymm as bs h1 h2]
    · simp only [charLe, if_neg hab, decide_eq_true_eq] at h1
      simp only [charLe, if_neg (Ne.symm hab), decide_eq_true_eq] at h2
      exact absurd h2 (lt_asymm h1)

/-- `componentsLe` is total. -/
theorem componentsLe_total : ∀ x y : List (List Char),
    componentsLe x y = true ∨ componentsLe y x = true
  | [], _ => .inl rfl
  | _ :: _, [] => .inr rfl
  | a :: as, b :: bs => by
    by_cases h : a = b
    · subst h
      simp only [componentsLe, if_pos rfl]
      exact componentsLe_total as bs
    · rcases charLe_total a b with hab | hba
      · exact .inl (by simp [componentsLe, h, hab])
      · exact .inr (by simp [componentsLe, Ne.symm h, hba])

/-- `componentsLe` is transitive. -/
theorem componentsLe_trans : ∀ x y z : List (List Char),
    componentsLe x y = true → componentsLe y z = true → componentsLe x z = true
  | [], _, _, _, _ => rfl
  | _ :: _, [], _, h1, _ => by simp [componentsLe] at h1
  | _ :: _, _ :: _, [], _, h2 => by simp [componentsLe] at h2
  | a :: as, b :: bs, c :: cs, h1, h2 => by
    by_cases hab : a = b
    · subst hab
      simp only [componentsLe, if_pos rfl] at h1
      by_cases hac : a = c
      · subst hac
        simp only [componentsLe, if_pos rfl] at h2 ⊢
        exact componentsLe_trans as bs cs h1 h2
      · simp only [componentsLe, if_neg hac] at h2 ⊢
        exact h2
    · simp only [componentsLe, if_neg hab] at h1
      by_cases hbc : b = c
      · subst hbc
        simp [componentsLe, hab, h1]
      · simp only [componentsLe, if_neg hbc] at h2
        have hac : a ≠ c := by
          rintro rfl
          exact hab (charLe_antisymm a b h1 h2)
        simp only [componentsLe, if_neg hac]
        exact charLe_trans a b c h1 h2

/-- `componentsLe` is antisymmetric. -/
theorem componentsLe_antisymm : ∀ x y : List (List Char),
    componentsLe x y = true → componentsLe y x = true → x = y
  | [], [], _, _ => rfl
  | [], _ :: _, _, h2 => by simp [componentsLe] at h2
  | _ :: _, [], h1, _ => by simp [componentsLe] at h1
  | a :: as, b :: bs, h1, h2 => by
    by_cases hab : a = b
    · subst hab
      simp only [componentsLe, if_pos rfl] at h1 h2
      rw [componentsLe_antisymm as bs h1 h2]
    · simp only [componentsLe, if_neg hab] at h1
      simp only [componentsLe, if_neg (Ne.symm hab)] at h2
      exact absurd (charLe_antisymm a b h1 h2) hab

/-- `splitOnChar` never returns an empty group list. -/
theorem splitOnChar_ne_nil (sep : Char) : ∀ cs : List Char, splitOnChar sep cs ≠ []
  | [] => by simp [splitOnChar]
  | c :: rest => by
    simp only [splitOnChar]
    by_cases h : c = sep
    · simp [h]
    · rw [if_neg h]
      cases hr : splitOnChar sep rest with
      | nil => simp
      | cons g gs => simp

/-- `joinSep` is a left inverse of `splitOnChar`. -/
theorem joinSep_splitOnChar (sep : Char) : ∀ cs : List Char,
    joinSep sep (splitOnChar sep cs) = cs
  | [] => rfl
  | c :: rest => by
    have ih := joinSep_splitOnChar sep rest
    simp only [splitOnChar]
    by_cases h : c = sep
    · rw [if_pos h]
      cases hr : splitOnChar sep rest with
      | nil => exact absurd hr (splitOnChar_ne_nil sep rest)
      | cons g gs =>
        rw [hr] at ih
        subst h
        simpa [joinSep] using ih
    · rw [if_neg h]
      cases hr : splitOnChar sep rest with
      | nil => exact absurd hr (splitOnChar_ne_nil sep rest)
      | cons g gs =>
        rw [hr] at ih
        cases gs with
        | nil => simpa [joinSep] using congrArg (c :: ·) ih
        | cons g2 gs2 => simpa [joinSep, List.cons_append] using congrArg (c :: ·) ih

instance : IsTotal String pathLe :=
  ⟨fun a b => componentsLe_total (splitOnChar '/' a.data) (splitOnChar '/' b.data)⟩

instance : IsTrans String pathLe :=
  ⟨fun a b c =>
    componentsLe_trans (splitOnChar '/' a.data) (splitOnChar '/' b.data)
      (splitOnChar '/' c.data)⟩

/-- `pathLe` is antisymmetric. -/
theorem pathLe_antisymm {a b : String} (h1 : pathLe a b) (h2 : pathLe b a) : a = b := by
  have hsplit := componentsLe_antisymm _ _ h1 h2
  have hdata : a.data = b.data := by
    rw [← joinSep_splitOnChar '/' a.data, ← joinSep_splitOnChar '/' b.data, hsplit]
  cases a with
  | mk da =>
    cases b with
    | mk db => exact congrArg String.mk hdata

/-! ## Locator lemmas: dedup -/

/-- Membership in `dedupAux`. -/
theorem mem_dedupAux (a : String) (l : List String) (x : String) :
    x ∈ dedupAux a l ↔ x = a ∨ x ∈ l := by
  induction l generalizing a with
  | nil => simp [dedupAux]
  | cons b rest ih =>
    rw [dedupAux]
    by_cases he : a = b
    · subst he
      rw [if_pos rfl, ih a]
      simp only [List.mem_cons]
      tauto
    · rw [if_neg he]
      simp only [List.mem_cons, ih b]

/-- `dedupConsec` preserves the set of paths. -/
theorem mem_dedupConsec (l : List String) (x : String) :
    x ∈ dedupConsec l ↔ x ∈ l := by
  cases l with
  | nil => simp [dedupConsec]
  | cons a rest => simp [dedupConsec, mem_dedupAux]

/-- Dedup of a sorted run headed by `a` is strictly sorted. -/
theorem dedupAux_sorted (a : String) (l : List String) (h : (a :: l).Sorted pathLe) :
    (dedupAux a l).Sorted fun x y => pathLe x y ∧ x ≠ y := by
  induction l generalizing a with
  | nil => simp [dedupAux]
  | cons b rest ih =>
    obtain ⟨hhead, hrest⟩ := List.sorted_cons.mp h
    rw [dedupAux]
    by_cases he : a = b
    · subst he
      rw [if_pos rfl]
      refine ih a (List.sorted_cons.mpr ⟨?_, (List.sorted_cons.mp hrest).2⟩)
      intro x hx
      exact hhead x (List.mem_cons_of_mem a hx)
    · rw [if_neg he]
      refine List.sorted_cons.mpr ⟨?_, ih b hrest⟩
      intro x hx
      rcases (mem_dedupAux b rest x).mp hx with hxb | hx
      · subst hxb
        exact ⟨hhead x (List.mem_cons_self x rest), he⟩
      · refine ⟨hhead x (List.mem_cons_of_mem b hx), ?_⟩
        rintro rfl
        exact he (pathLe_antisymm (hhead b (List.mem_cons_self b rest))
          ((List.sorted_cons.mp hrest).1 a hx))

/-- Dedup of a sorted list is strictly sorted. -/
theorem dedupConsec_sorted (l : List String) (h : l.Sorted pathLe) :
    (dedupConsec l).Sorted fun x y => pathLe x y ∧ x ≠ y := by
  cases l with
  | nil => simp [dedupConsec]
  | cons a rest => exact dedupAux_sorted a rest h

/-! ## Locator lemmas: collection -/

/-- Elimination for a successful `findFiles`: the result is the dedup of
the sorted collected paths. -/
theorem findFiles_ok_elim (fs : FileSystem) (paths files : List String)
    (h : findFiles fs paths = .ok files) :
    ∃ l, collectFiles fs paths = .ok l ∧ files = dedupConsec (l.insertionSort pathLe) := by
  unfold findFiles at h
  cases hc : collectFiles fs paths with
  | ok l =>
    rw [hc] at h
    exact ⟨l, rfl, by simpa [Except.map] using h.symm⟩
  | error e =>
    rw [hc] at h
    simp [Except.map] at h

/-- If some top-level path fails its metadata check, `collectFiles` fails
with an error naming a failing path. -/
theorem collectFiles_error (fs : FileSystem) : ∀ paths : List String,
    (∃ p ∈ paths, fs.metaOk p = false) →
    ∃ q ∈ paths, fs.metaOk q = false ∧
      collectFiles fs paths = .error (q ++ ": " ++ fs.ioErr q)
  | [], h => by simp at h
  | p :: rest, h => by
    by_cases hp : fs.metaOk p = true
    · have hr : ∃ x ∈ rest, fs.metaOk x = false := by
        rcases h with ⟨x, hx, hbad⟩
        rcases List.mem_cons.mp hx with rfl | hxr
        · rw [hp] at hbad; cases hbad
        · exact ⟨x, hxr, hbad⟩
      obtain ⟨q, hq, hbad, herr⟩ := collectFiles_error fs rest hr
      exact ⟨q, List.mem_cons_of_mem p hq, hbad, by simp [collectFiles, hp, herr, Except.map]⟩
    · refine ⟨p, List.mem_cons_self p rest, by simpa using hp, ?_⟩
      simp [collectFiles, hp]

/-- If every top-level path passes its metadata check and contributes no
eligible file, `collectFiles` returns the empty list. -/
theorem collectFiles_ok_nil (fs : FileSystem) : ∀ paths : List String,
    (∀ p ∈ paths, fs.metaOk p = true) → (∀ p ∈ paths, walkFiles fs p = []) →
    collectFiles fs paths = .ok []
  | [], _, _ => rfl
  | p :: rest, h1, h2 => by
    have := collectFiles_ok_nil fs rest
      (fun x hx => h1 x (List.mem_cons_of_mem p hx))
      (fun x hx => h2 x (List.mem_cons_of_mem p hx))
    simp [collectFiles, h1 p (List.mem_cons_self p rest), this, Except.map,
      h2 p (List.mem_cons_self p rest)]

/-- Membership in a successful `collectFiles` result. -/
theorem collectFiles_ok_mem (fs : FileSystem) : ∀ (paths l : List String),
    collectFiles fs paths = .ok l →
    ∀ x, x ∈ l ↔ ∃ p ∈ paths, x ∈ walkFiles fs p
  | [], l, h, x => by
    simp only [collectFiles] at h
    cases h
    simp
  | p :: rest, l, h, x => by
    by_cases hp : fs.metaOk p = true
    · simp only [collectFiles, hp, if_true] at h
      cases hc : collectFiles fs rest with
      | ok l' =>
        rw [hc] at h
        simp only [Except.map, Except.ok.injEq] at h
        subst h
        have := collectFiles_ok_mem fs rest l' hc x
        simp only [List.mem_append, this, List.mem_cons]
        constructor
        · rintro (hw | ⟨q, hq, hw⟩)
          · exact ⟨p, .inl rfl, hw⟩
          · exact ⟨q, .inr hq, hw⟩
        · rintro ⟨q, hq | hq, hw⟩
          · subst hq; exact .inl hw
          · exact .inr ⟨q, hq, hw⟩
      | error e =>
        rw [hc] at h
        simp [Except.map] at h
    · simp [collectFiles, hp] at h

/-! ## Locator theorems -/

/-- Claim C3, counterexample to the claim as stated: the Locator's output
for `fsC` lists `root/a/c` before `root/a-b` — the order `Ord for Path`
produces — and that adjacent pair is *not* ascending by byte-wise path
string, since the byte `-` sorts below the separator `/`. -/
theorem find_files_not_string_sorted :
    findFiles fsC ["root"] = .ok ["root/a/c", "root/a-b"] ∧
      ¬ pathStringLe "root/a/c" "root/a-b" :=
  ⟨rfl, by decide⟩

/-- Claim C3 (amended): whatever the input paths (any order, any
duplication), a successful Locator result is sorted ascending by Rust's
`Path` order — component-wise, components compared byte-wise — and has no
duplicate entries, so passing the same directory or file twice yields each
discovered path once.  (Ascending by the byte-wise path *string* fails:
see the counterexample.) -/
theorem find_files_sorted_nodup (fs : FileSystem) (paths files : List String)
    (h : findFiles fs paths = .ok files) :
    files.Sorted pathLe ∧ files.Nodup := by
  obtain ⟨l, _, rfl⟩ := findFiles_ok_elim fs paths files h
  have hsorted := dedupConsec_sorted (l.insertionSort pathLe)
    (List.sorted_insertionSort pathLe l)
  exact ⟨hsorted.imp fun hx => hx.1, List.Pairwise.imp (fun hx => hx.2) hsorted⟩

/-- Witness for claim C3: passing the same directory twice yields a
sorted, duplicate-free result. -/
theorem find_files_sorted_nodup_witness :
    (["root/a.txt", "root/sub/c.txt"] : List String).Sorted pathLe ∧
      (["root/a.txt", "root/sub/c.txt"] : List String).Nodup :=
  find_files_sorted_nodup fsW ["root", "root"] ["root/a.txt", "root/sub/c.txt"] rfl

/-- Claim C4: if any top-level input path fails its existence check the
Locator fails as a whole with an error identifying a failing path (no
partial result); and when all inputs exist but contribute no qualifying
file, the result is the empty sequence, not an error. -/
theorem find_files_fail_or_empty (fs : FileSystem) (paths : List String) :
    ((∃ p ∈ paths, fs.metaOk p = false) →
        ∃ q ∈ paths, fs.metaOk q = false ∧
          findFiles fs paths = .error (q ++ ": " ++ fs.ioErr q)) ∧
      ((∀ p ∈ paths, fs.metaOk p = true) → (∀ p ∈ paths, walkFiles fs p = []) →
        findFiles fs paths = .ok []) := by
  constructor
  · intro h
    obtain ⟨q, hq, hbad, herr⟩ := collectFiles_error fs paths h
    exact ⟨q, hq, hbad, by simp [findFiles, herr, Except.map]⟩
  · intro h1 h2
    simp [findFiles, collectFiles_ok_nil fs paths h1 h2, Except.map, dedupConsec]

/-- Witness for claim C4: one missing path fails the whole discovery even
though the other input is valid, and an existing path with no qualifying
files yields the empty sequence. -/
theorem find_files_fail_or_empty_witness :
    (∃ q ∈ ["missing", "root"], fsW.metaOk q = false ∧
        findFiles fsW ["missing", "root"] = .error (q ++ ": " ++ fsW.ioErr q)) ∧
      findFiles fsW ["empty"] = .ok [] :=
  ⟨(find_files_fail_or_empty fsW ["missing", "root"]).1 ⟨"missing", by decide, by decide⟩,
    (find_files_fail_or_empty fsW ["empty"]).2 (by decide) (by decide)⟩

/-- Claim C8: a successful Locator result contains a path exactly when the
walk of some input root yields it as a regular file whose extension is not
exactly `dat` — every `dat`-extension regular file is excluded, every
other regular file reachable from the roots is included. -/
theorem find_files_membership (fs : FileSystem) (paths files : List String)
    (h : findFiles fs paths = .ok files) (f : String) :
    f ∈ files ↔
      ∃ p ∈ paths, ∃ e ∈ fs.walk p,
        e.isFile = true ∧ pathExtension e.path ≠ some "dat" ∧ e.path = f := by
  obtain ⟨l, hc, rfl⟩ := findFiles_ok_elim fs paths files h
  rw [mem_dedupConsec, List.mem_insertionSort, collectFiles_ok_mem fs paths l hc f]
  constructor
  · rintro ⟨p, hp, hw⟩
    simp only [walkFiles, List.mem_map, List.mem_filter, eligible] at hw
    obtain ⟨e, ⟨hmem, helig⟩, hpath⟩ := hw
    simp only [Bool.and_eq_true, Bool.not_eq_eq_eq_not, Bool.not_true, beq_eq_false_iff_ne,
      ne_eq] at helig
    exact ⟨p, hp, e, hmem, helig.1, helig.2, hpath⟩
  · rintro ⟨p, hp, e, hmem, hfile, hext, hpath⟩
    refine ⟨p, hp, ?_⟩
    simp only [walkFiles, List.mem_map, List.mem_filter, eligible]
    refine ⟨e, ⟨hmem, ?_⟩, hpath⟩
    simp [hfile, hext]

/-- Witness for claim C8 at a concrete filesystem: `root/a.txt` is listed
because the walk of `root` yields it as a regular non-`dat` file. -/
theorem find_files_membership_witness :
    "root/a.txt" ∈ (["root/a.txt", "root/sub/c.txt"] : List String) ↔
      ∃ p ∈ ["root"], ∃ e ∈ fsW.walk p,
        e.isFile = true ∧ pathExtension e.path ≠ some "dat" ∧ e.path = "root/a.txt" :=
  find_files_membership fsW ["root"] ["root/a.txt", "root/sub/c.txt"] rfl "root/a.txt"

end Fortuner
